import Mathlib

/-!
Verification development for the Go-Promise repository (package `promise`).

The Go source is shallowly embedded: the `Promise[T]` struct becomes a Lean
structure, each exported operation becomes a pure state-transition function,
and the concurrent parts (mutex + atomic double-checked paths) collapse to a
single state test, which is what they amount to in any sequentially
consistent interleaving of one operation at a time.  Handler closures are
identified by `Nat` labels; the intrusive singly linked `handlerNode` chain
is embedded as an inductive `HandlerChain`, so that head insertion
(`node.next = p.handlers; p.handlers = node`, promise.go) and the head-first
traversal of `runHandlers` are reproduced exactly.
-/

namespace GoPromise

/-- Error values are modelled by their message string (Go `error`). -/
abbrev Err := String

/-- Embeds the `State` enumeration of promise.go (`Pending | Fulfilled | Rejected`). -/
inductive State where
  | Pending
  | Fulfilled
  | Rejected
deriving DecidableEq, Repr

/-- Embeds the intrusive `handlerNode` singly linked list of promise.go: each
node holds one handler (identified here by a `Nat` label) and a `next` link. -/
inductive HandlerChain where
  | nil
  | node (fn : Nat) (next : HandlerChain)
deriving DecidableEq, Repr

/-- Embeds `runHandlers` (promise.go): the chain is traversed from the head,
invoking each handler in turn; the returned list is the invocation order. -/
def runHandlersOrder : HandlerChain → List Nat
  | .nil => []
  | .node fn next => fn :: runHandlersOrder next

/-- Embeds the `Promise[T]` struct of promise.go.  `signal` records whether the
lazily created wait channel exists (`p.signal != nil`). -/
structure Promise (T : Type) where
  state : State
  val : T
  err : Option Err
  handlers : HandlerChain
  signal : Bool
deriving DecidableEq, Repr

/-- A freshly constructed `&Promise[T]{}`: zero value of every field
(state `Pending`, zero `val`, nil `err`, nil handler list, nil signal). -/
def freshPromise (T : Type) [Inhabited T] : Promise T :=
  { state := .Pending, val := default, err := none, handlers := .nil, signal := false }

/-- Embeds `GetState` (promise.go): an atomic read of the state field. -/
def GetState {T : Type} (p : Promise T) : State :=
  p.state

/-- Embeds `Resolve`/`doResolve` (promise.go).  The lock-free pre-check and the
re-check under the mutex both test `state != Pending`; sequentially they
collapse to one test.  On success the value is stored, the state becomes
`Fulfilled`, and the handler chain is drained (returned as the second
component, to be run by `runHandlers` outside the lock). -/
def Resolve {T : Type} (p : Promise T) (v : T) : Promise T × HandlerChain :=
  if p.state ≠ .Pending then (p, .nil)
  else ({ state := .Fulfilled, val := v, err := p.err, handlers := .nil, signal := p.signal },
        p.handlers)

/-- Embeds `Reject`/`doReject` (promise.go), symmetric to `Resolve`. -/
def Reject {T : Type} (p : Promise T) (e : Err) : Promise T × HandlerChain :=
  if p.state ≠ .Pending then (p, .nil)
  else ({ state := .Rejected, val := p.val, err := some e, handlers := .nil, signal := p.signal },
        p.handlers)

/-- Embeds the registration part of `Then` (promise.go): if the source is
settled, the handler body runs immediately on the calling thread and the
promise is untouched (returned flag `true`); if pending (both the lock-free
check and the re-check under the mutex see `Pending`), a node is taken from
the pool and inserted at the HEAD of the chain (returned flag `false`). -/
def thenRegister {T : Type} (p : Promise T) (h : Nat) : Promise T × Bool :=
  if p.state ≠ .Pending then (p, true)
  else ({ p with handlers := .node h p.handlers }, false)

/-- A settlement attempt: one call to `Resolve` or to `Reject`. -/
inductive Op (T : Type) where
  | resolveOp (v : T)
  | rejectOp (e : Err)
deriving DecidableEq, Repr

/-- Applies one settlement attempt, discarding the drained chain. -/
def applyOp {T : Type} (p : Promise T) : Op T → Promise T
  | .resolveOp v => (Resolve p v).1
  | .rejectOp e => (Reject p e).1

/-- Applies a sequence of settlement attempts in order. -/
def applyOps {T : Type} (p : Promise T) (ops : List (Op T)) : Promise T :=
  ops.foldl applyOp p

section SettleOnce

variable {T : Type}

/-- A settled promise absorbs any further `Resolve` as a no-op. -/
theorem Resolve_settled (p : Promise T) (v : T) (h : p.state ≠ .Pending) :
    Resolve p v = (p, .nil) := by
  simp [Resolve, h]

/-- A settled promise absorbs any further `Reject` as a no-op. -/
theorem Reject_settled (p : Promise T) (e : Err) (h : p.state ≠ .Pending) :
    Reject p e = (p, .nil) := by
  simp [Reject, h]

/-- One settlement attempt on a settled promise changes nothing. -/
theorem applyOp_settled (p : Promise T) (op : Op T) (h : p.state ≠ .Pending) :
    applyOp p op = p := by
  cases op with
  | resolveOp v => simp [applyOp, Resolve_settled p v h]
  | rejectOp e => simp [applyOp, Reject_settled p e h]

/-- Any sequence of settlement attempts on a settled promise changes nothing. -/
theorem applyOps_settled (p : Promise T) (ops : List (Op T)) (h : p.state ≠ .Pending) :
    applyOps p ops = p := by
  induction ops with
  | nil => rfl
  | cons op rest ih =>
    show applyOps (applyOp p op) rest = p
    rw [applyOp_settled p op h, ih]

end SettleOnce

section ClaimsCore

variable {T : Type}

/-- C1. The claim states that three handlers A, B, C registered via `Then` on a
pending future are invoked in registration order A, B, C once the future
settles.  The code contradicts this: `Then` inserts each node at the HEAD of
the chain and `runHandlers` traverses from the head without any reversal, so
registering handlers 0, 1, 2 on a fresh pending future and then resolving it
invokes them in the order 2, 1, 0 — exactly reversed, not FIFO.  (The
repository's own test `TestPromise_ExecutionOrder_FIFO` demands A, B, C, so
this is a defect in promise.go, not in the claim.) -/
theorem then_order_is_reversed :
    runHandlersOrder
        (Resolve
          ((thenRegister ((thenRegister ((thenRegister (freshPromise Nat) 0).1) 1).1) 2).1)
          42).2
      = [2, 1, 0] ∧
    runHandlersOrder
        (Resolve
          ((thenRegister ((thenRegister ((thenRegister (freshPromise Nat) 0).1) 1).1) 2).1)
          42).2
      ≠ [0, 1, 2] := by
  exact ⟨rfl, by decide⟩

/-- C2. After a first successful `Resolve v` the state is `Fulfilled` and the
stored value is `v`, and any further sequence of `Resolve`/`Reject` calls is a
no-op that leaves the promise (state, value, error, handlers, signal)
completely unchanged; symmetrically, after a first `Reject e` the state is
`Rejected` with stored error `e`, and all later settlement attempts are
no-ops. -/
theorem settle_exactly_once (p : Promise T) (v : T) (e : Err) (ops : List (Op T))
    (h : GetState p = .Pending) :
    GetState (Resolve p v).1 = .Fulfilled ∧
    (Resolve p v).1.val = v ∧
    applyOps (Resolve p v).1 ops = (Resolve p v).1 ∧
    GetState (Reject p e).1 = .Rejected ∧
    (Reject p e).1.err = some e ∧
    applyOps (Reject p e).1 ops = (Reject p e).1 := by
  have hres : (Resolve p v).1 =
      { state := .Fulfilled, val := v, err := p.err, handlers := .nil, signal := p.signal } := by
    simp [Resolve, GetState] at h ⊢
    simp [h]
  have hrej : (Reject p e).1 =
      { state := .Rejected, val := p.val, err := some e, handlers := .nil, signal := p.signal } := by
    simp [Reject, GetState] at h ⊢
    simp [h]
  refine ⟨?_, ?_, ?_, ?_, ?_, ?_⟩
  · rw [hres]; rfl
  · rw [hres]
  · exact applyOps_settled _ ops (by rw [hres]; simp)
  · rw [hrej]; rfl
  · rw [hrej]
  · exact applyOps_settled _ ops (by rw [hrej]; simp)

/-- C2 witness: a concrete fresh promise resolved with 7 and separately
rejected with "bad", then hit with further settlement attempts. -/
theorem settle_exactly_once_witness :
    GetState (freshPromise Nat) = .Pending ∧
    (GetState (Resolve (freshPromise Nat) 7).1 = .Fulfilled ∧
     (Resolve (freshPromise Nat) 7).1.val = 7 ∧
     applyOps (Resolve (freshPromise Nat) 7).1 [.resolveOp 9, .rejectOp "x"]
       = (Resolve (freshPromise Nat) 7).1 ∧
     GetState (Reject (freshPromise Nat) "bad").1 = .Rejected ∧
     (Reject (freshPromise Nat) "bad").1.err = some "bad" ∧
     applyOps (Reject (freshPromise Nat) "bad").1 [.resolveOp 9, .rejectOp "x"]
       = (Reject (freshPromise Nat) "bad").1) :=
  ⟨by decide,
   settle_exactly_once (freshPromise Nat) 7 "bad" [.resolveOp 9, .rejectOp "x"] (by decide)⟩

/-- C3. Registering a handler via `Then` on an already settled future invokes
the handler immediately (flag `true`) and leaves the future — in particular
its handler chain — completely unchanged, so the handler is never also
queued and a settled future never accumulates handlers. -/
theorem then_on_settled (p : Promise T) (h : GetState p ≠ .Pending) (hid : Nat) :
    thenRegister p hid = (p, true) := by
  simp [GetState] at h
  simp [thenRegister, h]

/-- C3 witness: registering handler 5 on a concrete fulfilled promise. -/
theorem then_on_settled_witness :
    GetState (Resolve (freshPromise Nat) 3).1 ≠ .Pending ∧
    thenRegister (Resolve (freshPromise Nat) 3).1 5 = ((Resolve (freshPromise Nat) 3).1, true) :=
  ⟨by decide, then_on_settled (Resolve (freshPromise Nat) 3).1 (by decide) 5⟩

end ClaimsCore

/-- Describes what happens while a blocked `Await` sits in its `select`: either
the external context is cancelled first, or the producer settles the promise
first (closing the signal channel and waking the waiter). -/
inductive AwaitEnv (T : Type) where
  | cancelledBefore (ce : Err)
  | settlesWith (op : Op T)

/-- Embeds the read a woken waiter performs after the signal channel closes
(promise.go, the `<-sig` branch of `Await`): fulfilled yields `(p.val, nil)`,
otherwise `(*new(T), p.err)`. -/
def readSettled {T : Type} [Inhabited T] (p : Promise T) : T × Option Err :=
  if p.state = .Fulfilled then (p.val, none) else ((default : T), p.err)

/-- Embeds `Await` (promise.go).  The lock-free fast path and the re-check
under the mutex both test the same state and collapse sequentially.  On the
pending path the signal channel is lazily created (`signal := true`), and the
`select` either returns the context's cancellation error or, once the
producer settles the promise, reads the settled state. -/
def Await {T : Type} [Inhabited T] (p : Promise T) (env : AwaitEnv T) :
    (T × Option Err) × Promise T :=
  if p.state = .Fulfilled then ((p.val, none), p)
  else if p.state = .Rejected then (((default : T), p.err), p)
  else
    let pw := { p with signal := true }
    match env with
    | .cancelledBefore ce => (((default : T), some ce), pw)
    | .settlesWith op =>
        let ps := applyOp pw op
        (readSettled ps, ps)

/-- A recovered panic value, as `handlePanic` (config.go) inspects it: either
it already implements `error` (carrying its message), or it is an arbitrary
value rendered by `fmt.Errorf` with the format string "panic: %v". -/
inductive PanicPayload where
  | errPayload (msg : String)
  | otherPayload (display : String)
deriving DecidableEq, Repr

/-- The textual content of the recovered panic value. -/
def payloadText : PanicPayload → String
  | .errPayload m => m
  | .otherPayload s => s

/-- Embeds the error construction in `handlePanic` (config.go): an `error`
payload is used as-is, anything else is wrapped as "panic: %v". -/
def payloadToError : PanicPayload → Err
  | .errPayload m => m
  | .otherPayload s => "panic: " ++ s

/-- Embeds `handlePanic(p.Reject)` (config.go): the recovered payload is
converted to an error and passed to the promise's `Reject`. -/
def handlePanicModel {T : Type} (p : Promise T) (pl : PanicPayload) : Promise T :=
  (Reject p (payloadToError pl)).1

/-- Embeds the body `New` dispatches (promise.go): the executor performs some
settlement calls and then either returns normally or panics, in which case the
deferred `handlePanic(p.Reject)` converts the fault into a rejection. -/
def runNewBody (T : Type) [Inhabited T] (ops : List (Op T)) (fault : Option PanicPayload) :
    Promise T :=
  let p := applyOps (freshPromise T) ops
  match fault with
  | none => p
  | some pl => handlePanicModel p pl

section AwaitClaims

variable {T : Type}

/-- A promise that has gone through the `New` body with a fault is never left
`Pending`: if the executor had not settled it, the deferred reject does. -/
theorem handlePanicModel_not_pending [Inhabited T] (p : Promise T) (pl : PanicPayload) :
    (handlePanicModel p pl).state ≠ .Pending := by
  by_cases h : p.state = .Pending
  · simp [handlePanicModel, Reject, h]
  · simp [handlePanicModel, Reject, h]

/-- C7. If the executor of a `New`-created future panics with payload `pl`
without having settled the future, the deferred `handlePanic` settles it as
`Rejected` with an error whose message contains the payload text, `Await`
returns that error (with the zero value) instead of propagating the fault,
and — whatever the executor did before faulting — the future never stays
`Pending`. -/
theorem new_panic_rejects [Inhabited T] (ops : List (Op T)) (pl : PanicPayload)
    (h : GetState (applyOps (freshPromise T) ops) = .Pending) (env : AwaitEnv T) :
    GetState (runNewBody T ops (some pl)) = .Rejected ∧
    (∃ a b, (runNewBody T ops (some pl)).err = some (a ++ payloadText pl ++ b)) ∧
    (Await (runNewBody T ops (some pl)) env).1 = ((default : T), some (payloadToError pl)) ∧
    (∀ ops' : List (Op T), GetState (runNewBody T ops' (some pl)) ≠ .Pending) := by
  simp only [GetState] at h
  have hbody : runNewBody T ops (some pl) =
      (Reject (applyOps (freshPromise T) ops) (payloadToError pl)).1 := rfl
  have hrej : (Reject (applyOps (freshPromise T) ops) (payloadToError pl)).1.state = .Rejected ∧
      (Reject (applyOps (freshPromise T) ops) (payloadToError pl)).1.err
        = some (payloadToError pl) := by
    constructor <;> simp [Reject, h]
  refine ⟨?_, ?_, ?_, ?_⟩
  · rw [hbody]; exact hrej.1
  · cases pl with
    | errPayload m =>
      refine ⟨"", "", ?_⟩
      rw [hbody, hrej.2]
      simp [payloadToError, payloadText, String.empty_append, String.append_empty]
    | otherPayload s =>
      refine ⟨"panic: ", "", ?_⟩
      rw [hbody, hrej.2]
      simp [payloadToError, payloadText, String.append_empty]
  · rw [hbody]
    rw [Await]
    rw [if_neg (by rw [hrej.1]; intro hc; exact State.noConfusion hc),
        if_pos hrej.1, hrej.2]
  · intro ops'
    exact handlePanicModel_not_pending _ pl

/-- C7 witness: an executor that settles nothing and panics with the non-error
value "boom"; the future rejects with message "panic: boom" and `Await`
surfaces it. -/
theorem new_panic_rejects_witness :
    GetState (applyOps (freshPromise Nat) []) = .Pending ∧
    (GetState (runNewBody Nat [] (some (.otherPayload "boom"))) = .Rejected ∧
     (∃ a b, (runNewBody Nat [] (some (.otherPayload "boom"))).err
        = some (a ++ payloadText (.otherPayload "boom") ++ b)) ∧
     (Await (runNewBody Nat [] (some (.otherPayload "boom"))) (.cancelledBefore "ctx")).1
        = ((default : Nat), some (payloadToError (.otherPayload "boom"))) ∧
     (∀ ops' : List (Op Nat),
        GetState (runNewBody Nat ops' (some (.otherPayload "boom"))) ≠ .Pending)) :=
  ⟨by decide,
   new_panic_rejects [] (.otherPayload "boom") (by decide) (.cancelledBefore "ctx")⟩

/-- C8. When the context of an `Await` on a pending future is cancelled before
settlement, the call returns the zero value together with the cancellation
error, and the future's state, value, error and handler chain are all left
untouched (only the lazily created signal channel now exists); in particular
the future is still `Pending` and a later `Resolve` from the producer's side
still fulfils it. -/
theorem await_cancel_leaves_future (p : Promise T) [Inhabited T] (ce : Err) (v : T)
    (h : GetState p = .Pending) :
    (Await p (.cancelledBefore ce)).1 = ((default : T), some ce) ∧
    (Await p (.cancelledBefore ce)).2.state = p.state ∧
    (Await p (.cancelledBefore ce)).2.val = p.val ∧
    (Await p (.cancelledBefore ce)).2.err = p.err ∧
    (Await p (.cancelledBefore ce)).2.handlers = p.handlers ∧
    GetState (Resolve (Await p (.cancelledBefore ce)).2 v).1 = .Fulfilled ∧
    (Resolve (Await p (.cancelledBefore ce)).2 v).1.val = v := by
  simp only [GetState] at h
  have hawait : Await p (.cancelledBefore ce)
      = (((default : T), some ce), { p with signal := true }) := by
    rw [Await]
    rw [if_neg (by rw [h]; intro hc; exact State.noConfusion hc),
        if_neg (by rw [h]; intro hc; exact State.noConfusion hc)]
  rw [hawait]
  refine ⟨rfl, rfl, rfl, rfl, rfl, ?_, ?_⟩ <;> simp [Resolve, GetState, h]

/-- C8 witness: a pending future with one registered handler, awaited under a
context that is cancelled, then resolved with 5 by the producer. -/
theorem await_cancel_leaves_future_witness :
    GetState (thenRegister (freshPromise Nat) 0).1 = .Pending ∧
    ((Await (thenRegister (freshPromise Nat) 0).1 (.cancelledBefore "cancelled")).1
        = ((default : Nat), some "cancelled") ∧
     (Await (thenRegister (freshPromise Nat) 0).1 (.cancelledBefore "cancelled")).2.state
        = (thenRegister (freshPromise Nat) 0).1.state ∧
     (Await (thenRegister (freshPromise Nat) 0).1 (.cancelledBefore "cancelled")).2.val
        = (thenRegister (freshPromise Nat) 0).1.val ∧
     (Await (thenRegister (freshPromise Nat) 0).1 (.cancelledBefore "cancelled")).2.err
        = (thenRegister (freshPromise Nat) 0).1.err ∧
     (Await (thenRegister (freshPromise Nat) 0).1 (.cancelledBefore "cancelled")).2.handlers
        = (thenRegister (freshPromise Nat) 0).1.handlers ∧
     GetState (Resolve
        (Await (thenRegister (freshPromise Nat) 0).1 (.cancelledBefore "cancelled")).2 5).1
        = .Fulfilled ∧
     (Resolve
        (Await (thenRegister (freshPromise Nat) 0).1 (.cancelledBefore "cancelled")).2 5).1.val
        = 5) :=
  ⟨by decide, await_cancel_leaves_future (thenRegister (freshPromise Nat) 0).1 "cancelled" 5
    (by decide)⟩

/-- C10. Whenever `Await` returns a non-nil error — a stored rejection reason,
a cancellation error, or a rejection read after being woken — the accompanying
value is the zero value of `T`; a meaningful stored value comes only with a
nil error. -/
theorem await_error_implies_zero_value (p : Promise T) [Inhabited T] (env : AwaitEnv T)
    (h : (Await p env).1.2 ≠ none) :
    (Await p env).1.1 = (default : T) := by
  rw [Await] at h ⊢
  by_cases hf : p.state = .Fulfilled
  · rw [if_pos hf] at h
    exact absurd rfl h
  · rw [if_neg hf] at h ⊢
    by_cases hr : p.state = .Rejected
    · rw [if_pos hr]
    · rw [if_neg hr] at h ⊢
      cases env with
      | cancelledBefore ce => rfl
      | settlesWith op =>
        simp only [readSettled] at h ⊢
        by_cases hs : (applyOp { p with signal := true } op).state = .Fulfilled
        · rw [if_pos hs] at h
          exact absurd rfl h
        · rw [if_neg hs]

/-- C10 witness: awaiting a concrete rejected future returns a non-nil error,
and the value returned alongside it is the zero value 0 of `Nat`. -/
theorem await_error_implies_zero_value_witness :
    (Await (Reject (freshPromise Nat) "e").1 (.cancelledBefore "c")).1.2 ≠ none ∧
    (Await (Reject (freshPromise Nat) "e").1 (.cancelledBefore "c")).1.1 = (default : Nat) :=
  ⟨by decide,
   await_error_implies_zero_value (Reject (freshPromise Nat) "e").1 (.cancelledBefore "c")
     (by decide)⟩

end AwaitClaims

/-- The eventual settlement outcome of one input future. -/
inductive Outcome (T : Type) where
  | fulfilled (v : T)
  | rejected (e : Err)
deriving DecidableEq, Repr

/-- Tests whether an outcome is a fulfilment. -/
def Outcome.isFulfilled {T : Type} : Outcome T → Bool
  | .fulfilled _ => true
  | .rejected _ => false

/-- Embeds `Map` (aggregate.go): once the source settles, the `Then` handler
runs the matching branch — on fulfilment the mapper is applied and a non-nil
mapper error rejects the mapped promise while a nil error resolves it with the
mapped value; on rejection the source error is forwarded to `reject`.  The
mapped promise starts as a fresh `New` promise. -/
def MapModel {T R : Type} [Inhabited R] (src : Outcome T) (mapper : T → R × Option Err) :
    Promise R :=
  match src with
  | .fulfilled v =>
      match mapper v with
      | (res, none) => (Resolve (freshPromise R) res).1
      | (_, some e) => (Reject (freshPromise R) e).1
  | .rejected e => (Reject (freshPromise R) e).1

section MapClaims

/-- C9. Round trip through `Map` on a fulfilled source: if the mapper returns
`(r, nil)` the mapped future resolves to `r`; if the mapper returns a non-nil
error `e`, the mapped future rejects with exactly `e` and never resolves. -/
theorem map_round_trip {T R : Type} [Inhabited R] (v : T) (mapper : T → R × Option Err) :
    (∀ r, mapper v = (r, none) →
      GetState (MapModel (.fulfilled v) mapper) = .Fulfilled ∧
      (MapModel (.fulfilled v) mapper).val = r) ∧
    (∀ r e, mapper v = (r, some e) →
      GetState (MapModel (.fulfilled v) mapper) = .Rejected ∧
      (MapModel (.fulfilled v) mapper).err = some e ∧
      GetState (MapModel (.fulfilled v) mapper) ≠ .Fulfilled) := by
  constructor
  · intro r hm
    simp [MapModel, hm, Resolve, Reject, GetState, freshPromise]
  · intro r e hm
    simp [MapModel, hm, Resolve, Reject, GetState, freshPromise]

/-- C9 witness: mapping the fulfilled value 100 with a formatting mapper
resolves to the formatted string, and mapping it with an error-returning
mapper rejects with that error without resolving. -/
theorem map_round_trip_witness :
    (GetState (MapModel (.fulfilled 100) (fun i : Nat => (toString i, (none : Option Err))))
        = .Fulfilled ∧
     (MapModel (.fulfilled 100) (fun i : Nat => (toString i, (none : Option Err)))).val
        = "100") ∧
    (GetState (MapModel (.fulfilled 100) (fun _ : Nat => ("", some "maperr"))) = .Rejected ∧
     (MapModel (.fulfilled 100) (fun _ : Nat => ("", some "maperr"))).err = some "maperr" ∧
     GetState (MapModel (.fulfilled 100) (fun _ : Nat => ("", some "maperr"))) ≠ .Fulfilled) :=
  ⟨(map_round_trip 100 (fun i : Nat => (toString i, (none : Option Err)))).1 "100" (by decide),
   (map_round_trip 100 (fun _ : Nat => ("", some "maperr"))).2 "" "maperr" rfl⟩

end MapClaims

/-- The value a fulfilled outcome carries (`target.val` read by an aggregation
handler); for a rejected outcome the slot keeps the zero value, as the
zero-filled `make([]T, count)` slice does in Go. -/
def outValue {T : Type} [Inhabited T] : Outcome T → T
  | .fulfilled v => v
  | .rejected _ => default

/-- Running state of one `All` aggregation (aggregate.go): the zero-filled
results slice, the atomic `pending` counter, the atomic `doneFlag`, and the
combined promise the closures `resolve`/`reject` act on.  Counters stay far
below the `int32` bound, so plain `Int` arithmetic is exact. -/
structure AllSt (T : Type) where
  results : List T
  pending : Int
  doneFlag : Bool
  comb : Promise (List T)
deriving DecidableEq

/-- Initial `All` state for `count = n` inputs: `make([]T, n)`, `pending = n`,
`doneFlag = 0`, and the fresh combined promise created by `New`. -/
def allInit (T : Type) [Inhabited T] (n : Nat) : AllSt T :=
  { results := List.replicate n default
    pending := (n : Int)
    doneFlag := false
    comb := freshPromise (List T) }

/-- Embeds the per-input `handler` closure of `All` (aggregate.go): on a
fulfilled target, an early return if `doneFlag` is already set, otherwise the
value is stored at the input's index, `pending` is decremented, and when it
reaches zero a compare-and-set of `doneFlag` guards the single `resolve`; on a
rejected target, the compare-and-set guards `reject(target.err)`. -/
def allHandler {T : Type} [Inhabited T] (out : Outcome T) (idx : Nat) (s : AllSt T) : AllSt T :=
  match out with
  | .fulfilled v =>
      if s.doneFlag then s
      else
        if s.pending - 1 = 0 then
          if s.doneFlag then
            { s with results := s.results.set idx v, pending := s.pending - 1 }
          else
            { results := s.results.set idx v, pending := s.pending - 1, doneFlag := true,
              comb := (Resolve s.comb (s.results.set idx v)).1 }
        else { s with results := s.results.set idx v, pending := s.pending - 1 }
  | .rejected e =>
      if s.doneFlag then s
      else { s with doneFlag := true, comb := (Reject s.comb e).1 }

/-- One firing of input `idx`'s handler, looking up that input's outcome. -/
def allStep {T : Type} [Inhabited T] (outcomes : List (Outcome T)) (s : AllSt T) (idx : Nat) :
    AllSt T :=
  match outcomes[idx]? with
  | some out => allHandler out idx s
  | none => s

/-- Embeds `All` (aggregate.go): with no inputs the combined promise resolves
immediately with the empty slice; otherwise each input's handler fires once,
in the order the inputs settle, given by the index list `order`. -/
def runAll {T : Type} [Inhabited T] (outcomes : List (Outcome T)) (order : List Nat) : AllSt T :=
  if outcomes.length = 0 then
    { allInit T 0 with comb := (Resolve (freshPromise (List T)) []).1 }
  else
    order.foldl (allStep outcomes) (allInit T outcomes.length)

/-- The error `Any` rejects with when called with no inputs (aggregate.go). -/
def anyNoPromisesErr : Err := "aggregate error: no promises"

/-- The error `Any` rejects with when every input rejects (aggregate.go). -/
def anyAllRejectedErr : Err := "aggregate error: all promises rejected"

/-- Running state of one `Any` aggregation (aggregate.go): the atomic
`pending` counter, the atomic `successFlag`, and the combined promise. -/
structure AnySt (T : Type) where
  pending : Int
  successFlag : Bool
  comb : Promise T
deriving DecidableEq

/-- Initial `Any` state for `n` inputs. -/
def anyInit (T : Type) [Inhabited T] (n : Nat) : AnySt T :=
  { pending := (n : Int), successFlag := false, comb := freshPromise T }

/-- Embeds the per-input `handler` closure of `Any` (aggregate.go): a
fulfilled target resolves the combined promise under a compare-and-set of
`successFlag`; a rejected target decrements `pending`, and when it reaches
zero with `successFlag` still clear, rejects with the aggregate error. -/
def anyHandler {T : Type} (out : Outcome T) (s : AnySt T) : AnySt T :=
  match out with
  | .fulfilled v =>
      if s.successFlag then s
      else { s with successFlag := true, comb := (Resolve s.comb v).1 }
  | .rejected _ =>
      if s.pending - 1 = 0 then
        if s.successFlag then { s with pending := s.pending - 1 }
        else
          { s with pending := s.pending - 1, comb := (Reject s.comb anyAllRejectedErr).1 }
      else { s with pending := s.pending - 1 }

/-- One firing of input `idx`'s handler in `Any`. -/
def anyStep {T : Type} (outcomes : List (Outcome T)) (s : AnySt T) (idx : Nat) : AnySt T :=
  match outcomes[idx]? with
  | some out => anyHandler out s
  | none => s

/-- Embeds `Any` (aggregate.go): with no inputs the combined promise rejects
immediately with the aggregate "no promises" error; otherwise each input's
handler fires once, in settlement order `order`. -/
def runAny {T : Type} [Inhabited T] (outcomes : List (Outcome T)) (order : List Nat) : AnySt T :=
  if outcomes.length = 0 then
    { anyInit T 0 with comb := (Reject (freshPromise T) anyNoPromisesErr).1 }
  else
    order.foldl (anyStep outcomes) (anyInit T outcomes.length)

/-- Embeds the `SettledResult[T]` record of aggregate.go. -/
structure SettledResult (T : Type) where
  status : State
  value : T
  reason : Option Err
deriving DecidableEq, Repr

instance {T : Type} [Inhabited T] : Inhabited (SettledResult T) :=
  ⟨{ status := .Pending, value := default, reason := none }⟩

/-- The record `AllSettled`'s handler stores for one settled input
(aggregate.go): fulfilled inputs record the value, rejected inputs record the
reason and keep the zero value. -/
def mkSettledResult {T : Type} [Inhabited T] : Outcome T → SettledResult T
  | .fulfilled v => { status := .Fulfilled, value := v, reason := none }
  | .rejected e => { status := .Rejected, value := default, reason := some e }

/-- Running state of one `AllSettled` aggregation (aggregate.go). -/
structure ASSt (T : Type) where
  results : List (SettledResult T)
  pending : Int
  comb : Promise (List (SettledResult T))
deriving DecidableEq

/-- Initial `AllSettled` state for `n` inputs. -/
def asInit (T : Type) [Inhabited T] (n : Nat) : ASSt T :=
  { results := List.replicate n default
    pending := (n : Int)
    comb := freshPromise (List (SettledResult T)) }

/-- Embeds the per-input `handler` closure of `AllSettled` (aggregate.go):
store the tagged record at the input's index, decrement `pending`, and resolve
once it reaches zero — there is no rejection path at all. -/
def asHandler {T : Type} [Inhabited T] (out : Outcome T) (idx : Nat) (s : ASSt T) : ASSt T :=
  if s.pending - 1 = 0 then
    { results := s.results.set idx (mkSettledResult out), pending := s.pending - 1,
      comb := (Resolve s.comb (s.results.set idx (mkSettledResult out))).1 }
  else { s with results := s.results.set idx (mkSettledResult out), pending := s.pending - 1 }

/-- One firing of input `idx`'s handler in `AllSettled`. -/
def asStep {T : Type} [Inhabited T] (outcomes : List (Outcome T)) (s : ASSt T) (idx : Nat) :
    ASSt T :=
  match outcomes[idx]? with
  | some out => asHandler out idx s
  | none => s

/-- Embeds `AllSettled` (aggregate.go): with no inputs the combined promise
resolves immediately with the empty slice; otherwise each input's handler
fires once, in settlement order `order`. -/
def runAllSettled {T : Type} [Inhabited T] (outcomes : List (Outcome T)) (order : List Nat) :
    ASSt T :=
  if outcomes.length = 0 then
    { asInit T 0 with comb := (Resolve (freshPromise (List (SettledResult T))) []).1 }
  else
    order.foldl (asStep outcomes) (asInit T outcomes.length)

/-- Setting an in-range index of a list makes exactly that value readable. -/
theorem getElem?_set_self_of_lt {α : Type _} (l : List α) (i : Nat) (a : α) (h : i < l.length) :
    (l.set i a)[i]? = some a := by
  rw [List.getElem?_set_self', List.getElem?_eq_getElem h]
  rfl

section AllClaims

variable {T : Type} [Inhabited T]

/-- Once `doneFlag` is set, every later `All` handler firing is a no-op: the
fulfilled branch returns early and the rejected branch's compare-and-set
fails. -/
theorem allStep_done (outcomes : List (Outcome T)) (s : AllSt T) (i : Nat)
    (h : s.doneFlag = true) : allStep outcomes s i = s := by
  cases ho : outcomes[i]? with
  | none => simp [allStep, ho]
  | some out =>
    cases out with
    | fulfilled v => simp [allStep, ho, allHandler, h]
    | rejected e => simp [allStep, ho, allHandler, h]

/-- Subsequent settlements after `doneFlag` is set leave the whole `All` state
unchanged. -/
theorem foldl_allStep_done (outcomes : List (Outcome T)) (l : List Nat) (s : AllSt T)
    (h : s.doneFlag = true) : l.foldl (allStep outcomes) s = s := by
  induction l with
  | nil => rfl
  | cons i rest ih =>
    rw [List.foldl_cons, allStep_done outcomes s i h]
    exact ih

/-- Processing a nonempty run of indices whose outcomes are all fulfilled,
starting from a state whose `pending` equals the number of indices left and
whose results slice already holds the values of every other index, ends with
the combined promise fulfilled with the values of all inputs in input order. -/
theorem all_run_fulfilled (outcomes : List (Outcome T)) (rest' : List Nat) :
    ∀ (idx : Nat) (s : AllSt T),
    (∀ i ∈ idx :: rest', ∃ v, outcomes[i]? = some (Outcome.fulfilled v)) →
    s.doneFlag = false →
    s.comb = freshPromise (List T) →
    s.pending = (((idx :: rest').length : Nat) : Int) →
    s.results.length = outcomes.length →
    (∀ i, i < outcomes.length → i ∉ idx :: rest' →
        s.results[i]? = (outcomes[i]?).map outValue) →
    ((idx :: rest').foldl (allStep outcomes) s).comb.state = .Fulfilled ∧
    ((idx :: rest').foldl (allStep outcomes) s).comb.val = outcomes.map outValue := by
  induction rest' with
  | nil =>
    intro idx s hful hdone hcomb hpend hlen hfill
    obtain ⟨v, hv⟩ := hful idx (by simp)
    have hidx : idx < outcomes.length := by
      by_contra hno
      rw [List.getElem?_eq_none (Nat.le_of_not_lt hno)] at hv
      exact Option.noConfusion hv
    have hpend0 : s.pending - 1 = 0 := by
      rw [hpend]; simp
    have hfull : s.results.set idx v = outcomes.map outValue := by
      apply List.ext_getElem?
      intro j
      by_cases hj : j = idx
      · subst hj
        rw [getElem?_set_self_of_lt _ _ _ (hlen ▸ hidx), List.getElem?_map, hv]
        rfl
      · rw [List.getElem?_set_ne (fun h => hj h.symm)]
        by_cases hjlt : j < outcomes.length
        · rw [List.getElem?_map]
          exact hfill j hjlt (by simpa using hj)
        · rw [List.getElem?_eq_none (by rw [hlen]; exact Nat.le_of_not_lt hjlt),
              List.getElem?_eq_none (by rw [List.length_map]; exact Nat.le_of_not_lt hjlt)]
    have hstep : [idx].foldl (allStep outcomes) s
        = { results := s.results.set idx v, pending := s.pending - 1, doneFlag := true,
            comb := (Resolve s.comb (s.results.set idx v)).1 } := by
      simp [allStep, hv, allHandler, hdone, hpend0]
    rw [hstep, hcomb, hfull]
    constructor <;> simp [Resolve, freshPromise]
  | cons i2 rest'' ih =>
    intro idx s hful hdone hcomb hpend hlen hfill
    obtain ⟨v, hv⟩ := hful idx (by simp)
    have hidx : idx < outcomes.length := by
      by_contra hno
      rw [List.getElem?_eq_none (Nat.le_of_not_lt hno)] at hv
      exact Option.noConfusion hv
    have hpend1 : ¬(s.pending - 1 = 0) := by
      rw [hpend]; push_cast [List.length_cons]; omega
    have hstep : allStep outcomes s idx
        = { s with results := s.results.set idx v, pending := s.pending - 1 } := by
      simp [allStep, hv, allHandler, hdone, hpend1]
    rw [List.foldl_cons, hstep]
    apply ih i2 { s with results := s.results.set idx v, pending := s.pending - 1 }
    · intro i hi
      exact hful i (List.mem_cons_of_mem idx hi)
    · exact hdone
    · exact hcomb
    · show s.pending - 1 = (((i2 :: rest'').length : Nat) : Int)
      rw [hpend]; push_cast [List.length_cons]; ring
    · show (s.results.set idx v).length = outcomes.length
      rw [List.length_set, hlen]
    · intro i hiN hnot
      show (s.results.set idx v)[i]? = (outcomes[i]?).map outValue
      by_cases hieq : i = idx
      · subst hieq
        rw [getElem?_set_self_of_lt _ _ _ (hlen ▸ hidx), hv]
        rfl
      · rw [List.getElem?_set_ne (fun h => hieq h.symm)]
        refine hfill i hiN ?_
        intro hmem
        rcases List.mem_cons.mp hmem with h | h
        · exact hieq h
        · exact hnot h

/-- Processing a run of indices whose outcomes are all fulfilled, while more
settlements are still pending than the run is long, never trips `doneFlag`,
never touches the combined promise, and decrements `pending` once per index. -/
theorem all_run_fulfilled_prefix (outcomes : List (Outcome T)) (pre : List Nat) :
    ∀ (s : AllSt T),
    (∀ i ∈ pre, (outcomes[i]?).map Outcome.isFulfilled = some true) →
    s.doneFlag = false →
    ((pre.length : Int) < s.pending) →
    (pre.foldl (allStep outcomes) s).doneFlag = false ∧
    (pre.foldl (allStep outcomes) s).comb = s.comb ∧
    (pre.foldl (allStep outcomes) s).pending = s.pending - pre.length := by
  induction pre with
  | nil =>
    intro s _ hdone _
    exact ⟨hdone, rfl, by simp⟩
  | cons i pre' ih =>
    intro s hful hdone hlt
    have hi := hful i (by simp)
    obtain ⟨o, ho⟩ : ∃ o, outcomes[i]? = some o := by
      cases hoi : outcomes[i]? with
      | none => rw [hoi] at hi; exact Option.noConfusion hi
      | some o => exact ⟨o, rfl⟩
    rw [ho] at hi
    obtain ⟨v, hv⟩ : ∃ v, o = .fulfilled v := by
      cases o with
      | fulfilled v => exact ⟨v, rfl⟩
      | rejected e => simp [Outcome.isFulfilled] at hi
    subst hv
    have hlt' : ((pre'.length : Int)) + 1 < s.pending := by
      push_cast [List.length_cons] at hlt; omega
    have hpend1 : ¬(s.pending - 1 = 0) := by omega
    have hstep : allStep outcomes s i
        = { s with results := s.results.set i v, pending := s.pending - 1 } := by
      simp [allStep, ho, allHandler, hdone, hpend1]
    rw [List.foldl_cons, hstep]
    obtain ⟨hd1, hc1, hp1⟩ := ih { s with results := s.results.set i v, pending := s.pending - 1 }
      (fun j hj => hful j (List.mem_cons_of_mem i hj)) hdone
      (by show ((pre'.length : Int)) < s.pending - 1; omega)
    refine ⟨hd1, hc1, ?_⟩
    rw [hp1]
    show s.pending - 1 - (pre'.length : Int) = s.pending - ((i :: pre').length : Nat)
    push_cast [List.length_cons]
    ring

/-- C4. `All`, fed the eventual outcomes of its inputs and any settlement
order that fires each input's handler exactly once: with no inputs the
combined promise resolves immediately with the empty sequence; when every
input is fulfilled it resolves with the input values in input order, whatever
the settlement order was; and when the settlement order reaches a first
rejection after only fulfilled inputs, it rejects with exactly that
rejection's error and all later settlements are ignored. -/
theorem All_matches_spec (outcomes : List (Outcome T)) (order : List Nat)
    (hperm : order.Perm (List.range outcomes.length)) :
    (outcomes = [] →
      GetState (runAll outcomes order).comb = .Fulfilled ∧
      (runAll outcomes order).comb.val = []) ∧
    ((∀ o ∈ outcomes, o.isFulfilled = true) →
      GetState (runAll outcomes order).comb = .Fulfilled ∧
      (runAll outcomes order).comb.val = outcomes.map outValue) ∧
    (∀ pre j post e, order = pre ++ j :: post →
      outcomes[j]? = some (.rejected e) →
      (∀ i ∈ pre, (outcomes[i]?).map Outcome.isFulfilled = some true) →
      GetState (runAll outcomes order).comb = .Rejected ∧
      (runAll outcomes order).comb.err = some e) := by
  have horderlen : order.length = outcomes.length := by
    rw [hperm.length_eq, List.length_range]
  refine ⟨?_, ?_, ?_⟩
  · intro hempty
    subst hempty
    exact ⟨rfl, rfl⟩
  · intro hful
    by_cases hempty : outcomes.length = 0
    · obtain rfl : outcomes = [] := List.eq_nil_of_length_eq_zero hempty
      exact ⟨rfl, rfl⟩
    · have hne : order ≠ [] := by
        intro h0
        rw [h0] at horderlen
        exact hempty horderlen.symm
      obtain ⟨idx, rest', horder⟩ := List.exists_cons_of_ne_nil hne
      simp only [GetState, runAll, if_neg hempty, horder]
      apply all_run_fulfilled outcomes rest' idx (allInit T outcomes.length)
      · intro i hi
        have hiN : i < outcomes.length := by
          have : i ∈ List.range outcomes.length := by
            exact hperm.mem_iff.mp (by rw [horder]; exact hi)
          exact List.mem_range.mp this
        refine ⟨outValue outcomes[i], ?_⟩
        rw [List.getElem?_eq_getElem hiN]
        have := hful outcomes[i] (List.getElem_mem hiN)
        cases hout : outcomes[i] with
        | fulfilled v => rfl
        | rejected e => rw [hout] at this; simp [Outcome.isFulfilled] at this
      · rfl
      · rfl
      · show ((outcomes.length : Nat) : Int) = (((idx :: rest').length : Nat) : Int)
        rw [← horder, horderlen]
      · simp [allInit]
      · intro i hiN hnot
        exact absurd (by rw [← horder]; exact hperm.mem_iff.mpr (List.mem_range.mpr hiN)) hnot
  · intro pre j post e horder hj hpre
    have hjlt : j < outcomes.length := by
      by_contra hno
      rw [List.getElem?_eq_none (Nat.le_of_not_lt hno)] at hj
      exact Option.noConfusion hj
    have hempty : ¬(outcomes.length = 0) := by omega
    simp only [GetState, runAll, if_neg hempty, horder, List.foldl_append, List.foldl_cons]
    have hprelt : ((pre.length : Int)) < (allInit T outcomes.length).pending := by
      show ((pre.length : Int)) < ((outcomes.length : Nat) : Int)
      have hlt : pre.length < order.length := by
        rw [horder, List.length_append, List.length_cons]
        omega
      rw [horderlen] at hlt
      exact_mod_cast hlt
    obtain ⟨hd1, hc1, _⟩ :=
      all_run_fulfilled_prefix outcomes pre (allInit T outcomes.length) hpre rfl hprelt
    have hstepj : allStep outcomes (pre.foldl (allStep outcomes) (allInit T outcomes.length)) j
        = { pre.foldl (allStep outcomes) (allInit T outcomes.length) with
            doneFlag := true,
            comb := (Reject (pre.foldl (allStep outcomes) (allInit T outcomes.length)).comb e).1 } := by
      simp [allStep, hj, allHandler, hd1]
    rw [hstepj, foldl_allStep_done outcomes post _ rfl, hc1]
    constructor <;> simp [allInit, Reject, freshPromise]

/-- C4 witness: three fulfilled inputs 1, 2, 3 settling in the order third,
first, second resolve the combined promise with the values 1, 2, 3 in input
order; and inputs (fulfilled 1, rejected "oops") settling in input order
reject the combined promise with "oops". -/
theorem All_matches_spec_witness :
    (([2, 0, 1] : List Nat).Perm
        (List.range ([.fulfilled 1, .fulfilled 2, .fulfilled 3] : List (Outcome Nat)).length) ∧
     (∀ o ∈ ([.fulfilled 1, .fulfilled 2, .fulfilled 3] : List (Outcome Nat)),
        o.isFulfilled = true) ∧
     GetState (runAll ([.fulfilled 1, .fulfilled 2, .fulfilled 3] : List (Outcome Nat))
        [2, 0, 1]).comb = .Fulfilled ∧
     (runAll ([.fulfilled 1, .fulfilled 2, .fulfilled 3] : List (Outcome Nat)) [2, 0, 1]).comb.val
        = ([.fulfilled 1, .fulfilled 2, .fulfilled 3] : List (Outcome Nat)).map outValue) ∧
    (([0, 1] : List Nat).Perm
        (List.range ([.fulfilled 1, .rejected "oops"] : List (Outcome Nat)).length) ∧
     GetState (runAll ([.fulfilled 1, .rejected "oops"] : List (Outcome Nat)) [0, 1]).comb
        = .Rejected ∧
     (runAll ([.fulfilled 1, .rejected "oops"] : List (Outcome Nat)) [0, 1]).comb.err
        = some "oops") := by
  refine ⟨⟨by decide, by decide, ?_⟩, ⟨by decide, ?_⟩⟩
  · exact (All_matches_spec [.fulfilled 1, .fulfilled 2, .fulfilled 3] [2, 0, 1]
      (by decide)).2.1 (by decide)
  · have h := (All_matches_spec ([.fulfilled 1, .rejected "oops"] : List (Outcome Nat)) [0, 1]
      (by decide)).2.2 [0] 1 [] "oops" rfl (by decide) (by decide)
    exact h

end AllClaims

section AnyClaims

variable {T : Type}

/-- Once `successFlag` is set, later `Any` handler firings may still decrement
`pending` but never touch the combined promise and never clear the flag. -/
theorem anyStep_success (outcomes : List (Outcome T)) (s : AnySt T) (i : Nat)
    (h : s.successFlag = true) :
    (anyStep outcomes s i).successFlag = true ∧ (anyStep outcomes s i).comb = s.comb := by
  cases ho : outcomes[i]? with
  | none => simp [anyStep, ho, h]
  | some out =>
    cases out with
    | fulfilled v => simp [anyStep, ho, anyHandler, h]
    | rejected e =>
      simp only [anyStep, ho, anyHandler]
      by_cases hp : s.pending - 1 = 0
      · simp [hp, h]
      · simp [hp, h]

/-- Settlements arriving after `successFlag` is set leave the combined promise
unchanged. -/
theorem foldl_anyStep_success (outcomes : List (Outcome T)) (l : List Nat) (s : AnySt T)
    (h : s.successFlag = true) :
    (l.foldl (anyStep outcomes) s).successFlag = true ∧
    (l.foldl (anyStep outcomes) s).comb = s.comb := by
  induction l generalizing s with
  | nil => exact ⟨h, rfl⟩
  | cons i rest ih =>
    rw [List.foldl_cons]
    obtain ⟨h1, h2⟩ := anyStep_success outcomes s i h
    obtain ⟨h3, h4⟩ := ih (anyStep outcomes s i) h1
    exact ⟨h3, by rw [h4, h2]⟩

/-- Processing a run of rejections while more settlements remain pending than
the run is long keeps `successFlag` clear, never touches the combined promise,
and decrements `pending` once per rejection. -/
theorem any_run_rejected_prefix (outcomes : List (Outcome T)) (pre : List Nat) :
    ∀ (s : AnySt T),
    (∀ i ∈ pre, (outcomes[i]?).map Outcome.isFulfilled = some false) →
    s.successFlag = false →
    ((pre.length : Int) < s.pending) →
    (pre.foldl (anyStep outcomes) s).successFlag = false ∧
    (pre.foldl (anyStep outcomes) s).comb = s.comb ∧
    (pre.foldl (anyStep outcomes) s).pending = s.pending - pre.length := by
  induction pre with
  | nil =>
    intro s _ hsf _
    exact ⟨hsf, rfl, by simp⟩
  | cons i pre' ih =>
    intro s hrej hsf hlt
    have hi := hrej i (by simp)
    obtain ⟨o, ho⟩ : ∃ o, outcomes[i]? = some o := by
      cases hoi : outcomes[i]? with
      | none => rw [hoi] at hi; exact Option.noConfusion hi
      | some o => exact ⟨o, rfl⟩
    rw [ho] at hi
    obtain ⟨e, he⟩ : ∃ e, o = .rejected e := by
      cases o with
      | fulfilled v => simp [Outcome.isFulfilled] at hi
      | rejected e => exact ⟨e, rfl⟩
    subst he
    have hlt' : ((pre'.length : Int)) + 1 < s.pending := by
      push_cast [List.length_cons] at hlt; omega
    have hp1 : ¬(s.pending - 1 = 0) := by omega
    have hstep : anyStep outcomes s i = { s with pending := s.pending - 1 } := by
      simp [anyStep, ho, anyHandler, hp1]
    rw [List.foldl_cons, hstep]
    obtain ⟨h1, h2, h3⟩ := ih { s with pending := s.pending - 1 }
      (fun j hj => hrej j (List.mem_cons_of_mem i hj)) hsf
      (by show ((pre'.length : Int)) < s.pending - 1; omega)
    refine ⟨h1, h2, ?_⟩
    rw [h3]
    show s.pending - 1 - (pre'.length : Int) = s.pending - ((i :: pre').length : Nat)
    push_cast [List.length_cons]
    ring

/-- Processing a nonempty run of indices whose outcomes are all rejections,
starting with `pending` equal to the run's length and `successFlag` clear,
ends with the combined promise rejected with the aggregate error. -/
theorem any_run_all_rejected [Inhabited T] (outcomes : List (Outcome T)) (rest' : List Nat) :
    ∀ (idx : Nat) (s : AnySt T),
    (∀ i ∈ idx :: rest', (outcomes[i]?).map Outcome.isFulfilled = some false) →
    s.successFlag = false →
    s.comb = freshPromise T →
    s.pending = (((idx :: rest').length : Nat) : Int) →
    ((idx :: rest').foldl (anyStep outcomes) s).comb.state = .Rejected ∧
    ((idx :: rest').foldl (anyStep outcomes) s).comb.err = some anyAllRejectedErr := by
  induction rest' with
  | nil =>
    intro idx s hrej hsf hcomb hpend
    have hi := hrej idx (by simp)
    obtain ⟨o, ho⟩ : ∃ o, outcomes[idx]? = some o := by
      cases hoi : outcomes[idx]? with
      | none => rw [hoi] at hi; exact Option.noConfusion hi
      | some o => exact ⟨o, rfl⟩
    rw [ho] at hi
    obtain ⟨e, he⟩ : ∃ e, o = .rejected e := by
      cases o with
      | fulfilled v => simp [Outcome.isFulfilled] at hi
      | rejected e => exact ⟨e, rfl⟩
    subst he
    have hp0 : s.pending - 1 = 0 := by rw [hpend]; simp
    have hstep : [idx].foldl (anyStep outcomes) s
        = { s with
            pending := s.pending - 1,
            comb := (Reject s.comb anyAllRejectedErr).1 } := by
      simp [anyStep, ho, anyHandler, hp0, hsf]
    rw [hstep, hcomb]
    constructor <;> simp [Reject, freshPromise]
  | cons i2 rest'' ih =>
    intro idx s hrej hsf hcomb hpend
    have hi := hrej idx (by simp)
    obtain ⟨o, ho⟩ : ∃ o, outcomes[idx]? = some o := by
      cases hoi : outcomes[idx]? with
      | none => rw [hoi] at hi; exact Option.noConfusion hi
      | some o => exact ⟨o, rfl⟩
    rw [ho] at hi
    obtain ⟨e, he⟩ : ∃ e, o = .rejected e := by
      cases o with
      | fulfilled v => simp [Outcome.isFulfilled] at hi
      | rejected e => exact ⟨e, rfl⟩
    subst he
    have hp1 : ¬(s.pending - 1 = 0) := by
      rw [hpend]; push_cast [List.length_cons]; omega
    have hstep : anyStep outcomes s idx = { s with pending := s.pending - 1 } := by
      simp [anyStep, ho, anyHandler, hp1]
    rw [List.foldl_cons, hstep]
    apply ih i2
    · intro i hi2
      exact hrej i (List.mem_cons_of_mem idx hi2)
    · exact hsf
    · exact hcomb
    · show s.pending - 1 = (((i2 :: rest'').length : Nat) : Int)
      rw [hpend]; push_cast [List.length_cons]; ring

/-- C5. `Any`, fed the eventual outcomes of its inputs and any settlement
order that fires each input's handler exactly once: with no inputs the
combined promise rejects immediately with the aggregate "no promises" error;
the first fulfilled input to settle resolves the combined promise with its
value, whatever settles afterwards; and when every input rejects, the
combined promise rejects with the aggregate "all promises rejected" error. -/
theorem Any_matches_spec [Inhabited T] (outcomes : List (Outcome T)) (order : List Nat)
    (hperm : order.Perm (List.range outcomes.length)) :
    (outcomes = [] →
      GetState (runAny outcomes order).comb = .Rejected ∧
      (runAny outcomes order).comb.err = some anyNoPromisesErr) ∧
    (∀ pre j post v, order = pre ++ j :: post →
      outcomes[j]? = some (.fulfilled v) →
      (∀ i ∈ pre, (outcomes[i]?).map Outcome.isFulfilled = some false) →
      GetState (runAny outcomes order).comb = .Fulfilled ∧
      (runAny outcomes order).comb.val = v) ∧
    ((∀ o ∈ outcomes, o.isFulfilled = false) → outcomes ≠ [] →
      GetState (runAny outcomes order).comb = .Rejected ∧
      (runAny outcomes order).comb.err = some anyAllRejectedErr) := by
  have horderlen : order.length = outcomes.length := by
    rw [hperm.length_eq, List.length_range]
  refine ⟨?_, ?_, ?_⟩
  · intro hempty
    subst hempty
    exact ⟨rfl, rfl⟩
  · intro pre j post v horder hj hpre
    have hjlt : j < outcomes.length := by
      by_contra hno
      rw [List.getElem?_eq_none (Nat.le_of_not_lt hno)] at hj
      exact Option.noConfusion hj
    have hempty : ¬(outcomes.length = 0) := by omega
    simp only [GetState, runAny, if_neg hempty, horder, List.foldl_append, List.foldl_cons]
    have hprelt : ((pre.length : Int)) < (anyInit T outcomes.length).pending := by
      show ((pre.length : Int)) < ((outcomes.length : Nat) : Int)
      have hlt : pre.length < order.length := by
        rw [horder, List.length_append, List.length_cons]
        omega
      rw [horderlen] at hlt
      exact_mod_cast hlt
    obtain ⟨h1, h2, _⟩ :=
      any_run_rejected_prefix outcomes pre (anyInit T outcomes.length) hpre rfl hprelt
    have hstepj : anyStep outcomes (pre.foldl (anyStep outcomes) (anyInit T outcomes.length)) j
        = { pre.foldl (anyStep outcomes) (anyInit T outcomes.length) with
            successFlag := true,
            comb := (Resolve (pre.foldl (anyStep outcomes) (anyInit T outcomes.length)).comb v).1 } := by
      simp [anyStep, hj, anyHandler, h1]
    rw [hstepj]
    have hS := foldl_anyStep_success outcomes post
      { pre.foldl (anyStep outcomes) (anyInit T outcomes.length) with
        successFlag := true,
        comb := (Resolve (pre.foldl (anyStep outcomes) (anyInit T outcomes.length)).comb v).1 } rfl
    rw [hS.2, h2]
    constructor <;> simp [anyInit, Resolve, freshPromise]
  · intro hrej hne
    have hempty : ¬(outcomes.length = 0) := fun h0 => hne (List.eq_nil_of_length_eq_zero h0)
    have hneOrder : order ≠ [] := by
      intro h0
      rw [h0] at horderlen
      exact hempty horderlen.symm
    obtain ⟨idx, rest', horder⟩ := List.exists_cons_of_ne_nil hneOrder
    simp only [GetState, runAny, if_neg hempty, horder]
    apply any_run_all_rejected outcomes rest' idx (anyInit T outcomes.length)
    · intro i hi
      have hiN : i < outcomes.length := by
        have : i ∈ List.range outcomes.length := hperm.mem_iff.mp (by rw [horder]; exact hi)
        exact List.mem_range.mp this
      rw [List.getElem?_eq_getElem hiN]
      have := hrej outcomes[i] (List.getElem_mem hiN)
      simp [this]
    · rfl
    · rfl
    · show ((outcomes.length : Nat) : Int) = (((idx :: rest').length : Nat) : Int)
      rw [← horder, horderlen]

/-- C5 witness: with inputs (rejected "r0", fulfilled 7, fulfilled 8) settling
in input order, the first fulfilled value 7 wins; with all inputs rejected the
aggregate error is produced; with no inputs the "no promises" error is
produced immediately. -/
theorem Any_matches_spec_witness :
    (([0, 1, 2] : List Nat).Perm
        (List.range ([.rejected "r0", .fulfilled 7, .fulfilled 8] : List (Outcome Nat)).length) ∧
     GetState (runAny ([.rejected "r0", .fulfilled 7, .fulfilled 8] : List (Outcome Nat))
        [0, 1, 2]).comb = .Fulfilled ∧
     (runAny ([.rejected "r0", .fulfilled 7, .fulfilled 8] : List (Outcome Nat))
        [0, 1, 2]).comb.val = 7) ∧
    (([1, 0] : List Nat).Perm
        (List.range ([.rejected "a", .rejected "b"] : List (Outcome Nat)).length) ∧
     GetState (runAny ([.rejected "a", .rejected "b"] : List (Outcome Nat)) [1, 0]).comb
        = .Rejected ∧
     (runAny ([.rejected "a", .rejected "b"] : List (Outcome Nat)) [1, 0]).comb.err
        = some anyAllRejectedErr) ∧
    (GetState (runAny ([] : List (Outcome Nat)) []).comb = .Rejected ∧
     (runAny ([] : List (Outcome Nat)) []).comb.err = some anyNoPromisesErr) := by
  refine ⟨⟨by decide, ?_⟩, ⟨by decide, ?_⟩, ?_⟩
  · exact (Any_matches_spec ([.rejected "r0", .fulfilled 7, .fulfilled 8] : List (Outcome Nat))
      [0, 1, 2] (by decide)).2.1 [0] 1 [2] 7 rfl (by decide) (by decide)
  · exact (Any_matches_spec ([.rejected "a", .rejected "b"] : List (Outcome Nat)) [1, 0]
      (by decide)).2.2 (by decide) (by decide)
  · exact (Any_matches_spec ([] : List (Outcome Nat)) [] (by decide)).1 rfl

end AnyClaims

section AllSettledClaims

variable {T : Type} [Inhabited T]

/-- Processing a nonempty run of in-range indices, with `pending` equal to the
run's length and the other indices already recorded, ends with the combined
promise fulfilled with every input's tagged record in input order. -/
theorem as_run (outcomes : List (Outcome T)) (rest' : List Nat) :
    ∀ (idx : Nat) (s : ASSt T),
    (∀ i ∈ idx :: rest', i < outcomes.length) →
    s.comb = freshPromise (List (SettledResult T)) →
    s.pending = (((idx :: rest').length : Nat) : Int) →
    s.results.length = outcomes.length →
    (∀ i, i < outcomes.length → i ∉ idx :: rest' →
        s.results[i]? = (outcomes[i]?).map mkSettledResult) →
    ((idx :: rest').foldl (asStep outcomes) s).comb.state = .Fulfilled ∧
    ((idx :: rest').foldl (asStep outcomes) s).comb.val = outcomes.map mkSettledResult := by
  induction rest' with
  | nil =>
    intro idx s hmem hcomb hpend hlen hfill
    have hidx : idx < outcomes.length := hmem idx (by simp)
    have hv : outcomes[idx]? = some outcomes[idx] := List.getElem?_eq_getElem hidx
    have hp0 : s.pending - 1 = 0 := by rw [hpend]; simp
    have hfull : s.results.set idx (mkSettledResult outcomes[idx])
        = outcomes.map mkSettledResult := by
      apply List.ext_getElem?
      intro j
      by_cases hj : j = idx
      · subst hj
        rw [getElem?_set_self_of_lt _ _ _ (hlen ▸ hidx), List.getElem?_map, hv]
        rfl
      · rw [List.getElem?_set_ne (fun h => hj h.symm)]
        by_cases hjlt : j < outcomes.length
        · rw [List.getElem?_map]
          exact hfill j hjlt (by simpa using hj)
        · rw [List.getElem?_eq_none (by rw [hlen]; exact Nat.le_of_not_lt hjlt),
              List.getElem?_eq_none (by rw [List.length_map]; exact Nat.le_of_not_lt hjlt)]
    have hstep : [idx].foldl (asStep outcomes) s
        = { results := s.results.set idx (mkSettledResult outcomes[idx]),
            pending := s.pending - 1,
            comb := (Resolve s.comb (s.results.set idx (mkSettledResult outcomes[idx]))).1 } := by
      simp [asStep, hv, asHandler, hp0]
    rw [hstep, hcomb, hfull]
    constructor <;> simp [Resolve, freshPromise]
  | cons i2 rest'' ih =>
    intro idx s hmem hcomb hpend hlen hfill
    have hidx : idx < outcomes.length := hmem idx (by simp)
    have hv : outcomes[idx]? = some outcomes[idx] := List.getElem?_eq_getElem hidx
    have hp1 : ¬(s.pending - 1 = 0) := by
      rw [hpend]; push_cast [List.length_cons]; omega
    have hstep : asStep outcomes s idx
        = { s with
            results := s.results.set idx (mkSettledResult outcomes[idx]),
            pending := s.pending - 1 } := by
      simp [asStep, hv, asHandler, hp1]
    rw [List.foldl_cons, hstep]
    apply ih i2
    · intro i hi
      exact hmem i (List.mem_cons_of_mem idx hi)
    · exact hcomb
    · show s.pending - 1 = (((i2 :: rest'').length : Nat) : Int)
      rw [hpend]; push_cast [List.length_cons]; ring
    · show (s.results.set idx (mkSettledResult outcomes[idx])).length = outcomes.length
      rw [List.length_set, hlen]
    · intro i hiN hnot
      show (s.results.set idx (mkSettledResult outcomes[idx]))[i]?
          = (outcomes[i]?).map mkSettledResult
      by_cases hieq : i = idx
      · subst hieq
        rw [getElem?_set_self_of_lt _ _ _ (hlen ▸ hidx), hv]
        rfl
      · rw [List.getElem?_set_ne (fun h => hieq h.symm)]
        refine hfill i hiN ?_
        intro hmem2
        rcases List.mem_cons.mp hmem2 with h | h
        · exact hieq h
        · exact hnot h

/-- C6. `AllSettled`, fed the eventual outcomes of its inputs and any
settlement order that fires each input's handler exactly once, always resolves
— it never rejects — with one tagged `SettledResult` per input, in input
order: fulfilled inputs carry their value, rejected inputs carry their reason.
An empty input list resolves immediately with the empty sequence. -/
theorem AllSettled_matches_spec (outcomes : List (Outcome T)) (order : List Nat)
    (hperm : order.Perm (List.range outcomes.length)) :
    GetState (runAllSettled outcomes order).comb = .Fulfilled ∧
    (runAllSettled outcomes order).comb.val = outcomes.map mkSettledResult ∧
    GetState (runAllSettled outcomes order).comb ≠ .Rejected := by
  have horderlen : order.length = outcomes.length := by
    rw [hperm.length_eq, List.length_range]
  have main : GetState (runAllSettled outcomes order).comb = .Fulfilled ∧
      (runAllSettled outcomes order).comb.val = outcomes.map mkSettledResult := by
    by_cases hempty : outcomes.length = 0
    · obtain rfl := List.eq_nil_of_length_eq_zero hempty
      exact ⟨rfl, rfl⟩
    · have hneOrder : order ≠ [] := by
        intro h0
        rw [h0] at horderlen
        exact hempty horderlen.symm
      obtain ⟨idx, rest', horder⟩ := List.exists_cons_of_ne_nil hneOrder
      simp only [GetState, runAllSettled, if_neg hempty, horder]
      apply as_run outcomes rest' idx (asInit T outcomes.length)
      · intro i hi
        have : i ∈ List.range outcomes.length := hperm.mem_iff.mp (by rw [horder]; exact hi)
        exact List.mem_range.mp this
      · rfl
      · show ((outcomes.length : Nat) : Int) = (((idx :: rest').length : Nat) : Int)
        rw [← horder, horderlen]
      · simp [asInit]
      · intro i hiN hnot
        exact absurd (by rw [← horder]; exact hperm.mem_iff.mpr (List.mem_range.mpr hiN)) hnot
  exact ⟨main.1, main.2, fun hc => absurd (main.1.symm.trans hc) (by decide)⟩

/-- C6 witness: inputs (fulfilled "ok", rejected "bad") settling in input
order resolve the combined promise with the records tagged Fulfilled "ok" and
Rejected "bad", in input order, and the combined promise is not rejected. -/
theorem AllSettled_matches_spec_witness :
    ([0, 1] : List Nat).Perm
        (List.range ([.fulfilled "ok", .rejected "bad"] : List (Outcome String)).length) ∧
    (GetState (runAllSettled ([.fulfilled "ok", .rejected "bad"] : List (Outcome String))
        [0, 1]).comb = .Fulfilled ∧
     (runAllSettled ([.fulfilled "ok", .rejected "bad"] : List (Outcome String)) [0, 1]).comb.val
        = ([.fulfilled "ok", .rejected "bad"] : List (Outcome String)).map mkSettledResult ∧
     GetState (runAllSettled ([.fulfilled "ok", .rejected "bad"] : List (Outcome String))
        [0, 1]).comb ≠ .Rejected) :=
  ⟨by decide,
   AllSettled_matches_spec ([.fulfilled "ok", .rejected "bad"] : List (Outcome String)) [0, 1]
     (by decide)⟩

end AllSettledClaims

end GoPromise
